import Mathlib

/-!
Shallow embedding of `beancount_tx_cleanup` (final iteration,
`src/beancount_tx_cleanup/cleaner.py` of the `src/` layout) together with the
transaction constructor from `beancount_tx_cleanup/helpers.py`.

Modelling conventions:
* Python `datetime.date` is a record of three naturals, ordered lexicographically.
* A Python `dict[str, str]` is an insertion-ordered association list without
  duplicate keys; `dict` equality (order-insensitive) is `metaEq`;
  `dict(sorted(d.items()))` is `sortMeta`.
* A Python `set[str]` is a duplicate-free list; `set.add` is `setAdd`.
* Fallible operations (a replacement template referencing a missing group,
  `re.Match.expand` applied to a non-string) return `Option`, mirroring the
  exceptions that propagate out of the Python code.
* A compiled regex is a pair of functions: `search` (Python `Pattern.search`,
  leftmost match) and `sub` (Python `Pattern.sub`).  The five concrete patterns
  used by the repository's extractor fixture are implemented character by
  character below, following Python `re` semantics for those patterns.
-/

namespace TxClean

/-- Python `datetime.date`. -/
structure Date where
  y : Nat
  m : Nat
  d : Nat
deriving DecidableEq, Repr

/-- `datetime.date` non-strict comparison (lexicographic on year, month, day). -/
def dateLe (a b : Date) : Bool :=
  decide (a.y < b.y) ||
    (decide (a.y = b.y) &&
      (decide (a.m < b.m) || (decide (a.m = b.m) && decide (a.d ≤ b.d))))

/-- `datetime.date` strict comparison. -/
def dateLt (a b : Date) : Bool :=
  decide (a.y < b.y) ||
    (decide (a.y = b.y) &&
      (decide (a.m < b.m) || (decide (a.m = b.m) && decide (a.d < b.d))))

/-- Python `max` on two dates, as used in `max(txn.date, extractor.last_used)`:
`max(a, b)` returns `a` when `b <= a`, else `b`. -/
def maxDate (a b : Date) : Date :=
  if dateLe b a then a else b

/-- `AGES_AGO = datetime.date(1900, 1, 1)`, the "never matched" sentinel. -/
def AGES_AGO : Date := ⟨1900, 1, 1⟩

/-- Left-pad a string with zeros to the given width. -/
def padZero (n : Nat) (s : String) : String :=
  String.mk (List.replicate (n - s.length) '0') ++ s

/-- `date.strftime("%Y-%m-%d")`. -/
def dateFmt (a : Date) : String :=
  padZero 4 (Nat.repr a.y) ++ "-" ++ padZero 2 (Nat.repr a.m) ++ "-" ++
    padZero 2 (Nat.repr a.d)

/-- The whitespace characters stripped by Python `str.strip()` (ASCII range). -/
def isPySpace (c : Char) : Bool :=
  c = ' ' || c = '\t' || c = '\n' || c = '\r' || c = '\x0b' || c = '\x0c'

/-- Python `str.strip()`: drop leading and trailing whitespace. -/
def pyStrip (s : String) : String :=
  String.mk (((s.data.dropWhile isPySpace).reverse.dropWhile isPySpace).reverse)

/-- Lowercase one character (ASCII range, which covers every string the
repository manipulates). -/
def lowerChar (c : Char) : Char :=
  if 'A' ≤ c ∧ c ≤ 'Z' then Char.ofNat (c.toNat + 32) else c

/-- Python `str.lower()` (ASCII range). -/
def pyLower (s : String) : String :=
  String.mk (s.data.map lowerChar)

/-- Python `\d` character class (ASCII digits, which is all the inputs use). -/
def isDigitC (c : Char) : Bool := '0' ≤ c && c ≤ '9'

/-- The `[\d.]` character class. -/
def isDigitDot (c : Char) : Bool := isDigitC c || c = '.'

/-- The `[A-Z]` character class. -/
def isUpperAZ (c : Char) : Bool := 'A' ≤ c && c ≤ 'Z'

/-- `d[k]` lookup in an association-list dict (`none` models a missing key). -/
def lookupKV : List (String × String) → String → Option String
  | [], _ => none
  | (k, v) :: rest, n => if k = n then some v else lookupKV rest n

/-- The body of `Meta.execute`: `if n in meta: meta[n] += f', {v}' else:
meta[n] = v`.  Updating an existing key keeps its position; a new key is
appended, as in an insertion-ordered Python dict. -/
def metaAdd : List (String × String) → String → String → List (String × String)
  | [], n, v => [(n, v)]
  | (k, w) :: rest, n, v =>
    if k = n then (k, w ++ ", " ++ v) :: rest else (k, w) :: metaAdd rest n v

/-- Plain dict assignment `d[k] = v`: overwrite in place or append. -/
def dictSet : List (String × String) → String → String → List (String × String)
  | [], k, v => [(k, v)]
  | (k', w) :: rest, k, v =>
    if k' = k then (k, v) :: rest else (k', w) :: dictSet rest k v

/-- Python `dict` equality: order-insensitive — the two dicts agree, as
key-to-value maps, on every key either of them mentions. -/
def metaEq (a b : List (String × String)) : Bool :=
  (a.map Prod.fst ++ b.map Prod.fst).all (fun k => lookupKV a k = lookupKV b k)

/-- Python string `<`: lexicographic comparison of code points. -/
def strLtChars : List Char → List Char → Bool
  | [], [] => false
  | [], _ :: _ => true
  | _ :: _, [] => false
  | a :: as, b :: bs =>
    if a.toNat = b.toNat then strLtChars as bs else decide (a.toNat < b.toNat)

/-- Python string `<=`: lexicographic comparison of code points. -/
def strLeChars : List Char → List Char → Bool
  | [], _ => true
  | _ :: _, [] => false
  | a :: as, b :: bs =>
    if a.toNat = b.toNat then strLeChars as bs else decide (a.toNat < b.toNat)

/-- Stable insertion, ascending with respect to `le`. -/
def insertLe (le : α → α → Bool) (a : α) : List α → List α
  | [] => [a]
  | b :: rest => if le a b then a :: b :: rest else b :: insertLe le a rest

/-- Python `sorted` for a total preorder `le` whose ties are equal elements:
stable insertion sort. -/
def isort (le : α → α → Bool) : List α → List α
  | [] => []
  | a :: rest => insertLe le a (isort le rest)

/-- The tuple order used by `sorted(meta.items())`: lexicographic on the
(key, value) pair of strings. -/
def kvLe (p q : String × String) : Bool :=
  strLtChars p.1.data q.1.data || (p.1 = q.1 && strLeChars p.2.data q.2.data)

/-- `dict(sorted(meta.items()))`. -/
def sortMeta (meta : List (String × String)) : List (String × String) :=
  isort kvLe meta

/-- `set.add`: insert a string into a duplicate-free list. -/
def setAdd (tags : List String) (v : String) : List String :=
  if v ∈ tags then tags else tags ++ [v]

/-- A `re.Match`: the list of groups, group 0 (the whole match) first.  `none`
models a group that did not participate in the match. -/
structure RMatch where
  groups : List (Option String)
deriving DecidableEq, Repr

/-- The `Replacement` type alias of `cleaner.py`:
`str | Callable[[re.Match], str]`. -/
inductive Replacement where
  | tmpl : String → Replacement
  | func : (RMatch → String) → Replacement

/-- Expansion of a `re` template string against the groups of a match, per
`re.Match.expand` / the string form of `re.Pattern.sub` as the repository uses
them: a literal character copies over, `\\` is a literal backslash, `\N`
(single digit) and `\g<N>` (single digit) insert group `N`.  A reference to a
group the pattern does not have raises `re.error` in Python, modelled as
`none`; since Python 3.5 a group that exists but did not participate expands to
the empty string. -/
def expandTemplate (groups : List (Option String)) : List Char → Option (List Char)
  | [] => some []
  | '\\' :: '\\' :: rest =>
    (expandTemplate groups rest).map (fun t => '\\' :: t)
  | '\\' :: 'g' :: '<' :: c :: '>' :: rest =>
    if isDigitC c then
      match groups.get? (c.toNat - 48) with
      | some g => (expandTemplate groups rest).map (fun t => (g.getD "").data ++ t)
      | none => none
    else none
  | '\\' :: c :: rest =>
    if isDigitC c then
      match groups.get? (c.toNat - 48) with
      | some g => (expandTemplate groups rest).map (fun t => (g.getD "").data ++ t)
      | none => none
    else none
  | c :: rest => (expandTemplate groups rest).map (fun t => c :: t)

/-- `re.Match.expand(template)`: only a string template is accepted; passing
the callable form of `Replacement` raises `TypeError` in Python (modelled as
`none`). -/
def RMatch.expand (m : RMatch) (r : Replacement) : Option String :=
  match r with
  | .tmpl t => (expandTemplate m.groups t.data).map String.mk
  | .func _ => none

/-- The replacement argument of `re.Pattern.sub`, applied to one match: a
string is template-expanded, a callable is applied to the match object. -/
def subRepl (m : RMatch) (r : Replacement) : Option String :=
  match r with
  | .tmpl t => (expandTemplate m.groups t.data).map String.mk
  | .func f => some (f m)

/-- A compiled pattern (`re.Pattern`), shallowly embedded as its `search` and
`sub` behaviour.  Each concrete pattern used by the repository's rule fixture
supplies its own faithful implementation of both. -/
structure Regex where
  search : String → Option RMatch
  sub : Replacement → String → Option String

/-- A position matcher: given the suffix of the subject starting at some
position, return the span matched there together with the group list (group 0
first), or `none` if the pattern does not match at that position. -/
def MatchAt : Type := List Char → Option (List Char × List (Option String))

/-- Python's leftmost-match scan: try the pattern at position 0, 1, ….
Returns the prefix before the match, the matched span and the groups. -/
def findLeftmost (ma : MatchAt) : List Char → Option (List Char × List Char × List (Option String))
  | [] =>
    match ma [] with
    | some (sp, gs) => some ([], sp, gs)
    | none => none
  | c :: rest =>
    match ma (c :: rest) with
    | some (sp, gs) => some ([], sp, gs)
    | none =>
      (findLeftmost ma rest).map (fun pre => (c :: pre.1, pre.2.1, pre.2.2))

/-- `re.Pattern.search` for a pattern anchored with `^` (no MULTILINE): the
pattern can only match at position 0. -/
def anchoredSearch (ma : MatchAt) (s : String) : Option RMatch :=
  (ma s.data).map (fun r => ⟨r.2⟩)

/-- `re.Pattern.sub` for a pattern anchored with `^`: at most one replacement,
at position 0; subsequent scan positions can never match the anchor again. -/
def anchoredSub (ma : MatchAt) (r : Replacement) (s : String) : Option String :=
  match ma s.data with
  | some (sp, gs) =>
    (subRepl ⟨gs⟩ r).map (fun t => t ++ String.mk (s.data.drop sp.length))
  | none => some s

/-- `re.Pattern.search` for an unanchored pattern: leftmost match wins. -/
def leftmostSearch (ma : MatchAt) (s : String) : Option RMatch :=
  (findLeftmost ma s.data).map (fun r => ⟨r.2.2⟩)

/-- `re.Pattern.sub` for a pattern that ends in `$` (so any match extends to
the end of the subject): the leftmost match is the only one, and scanning
resumes past it at the end of the string. -/
def endAnchoredSub (ma : MatchAt) (r : Replacement) (s : String) : Option String :=
  match findLeftmost ma s.data with
  | some (pre, sp, gs) =>
    (subRepl ⟨gs⟩ r).map
      (fun t => String.mk pre ++ t ++ String.mk (s.data.drop (pre.length + sp.length)))
  | none => some s

/-- Position matcher for `(?i)^(XY9\d+)`: case-insensitive `XY9` then one or
more digits (greedy). -/
def matchXY9At : MatchAt := fun l =>
  match l with
  | c0 :: c1 :: c2 :: rest =>
    if lowerChar c0 = 'x' && lowerChar c1 = 'y' && c2 = '9' then
      match rest.takeWhile isDigitC with
      | [] => none
      | ds =>
        let sp := c0 :: c1 :: c2 :: ds
        some (sp, [some (String.mk sp), some (String.mk sp)])
    else none
  | _ => none

/-- The compiled `re.compile(r'(?i)^(XY9\d+)')`. -/
def reXY9 : Regex := ⟨anchoredSearch matchXY9At, anchoredSub matchXY9At⟩

/-- Position matcher for `(?i)^(ID\d+)`. -/
def matchIDAt : MatchAt := fun l =>
  match l with
  | c0 :: c1 :: rest =>
    if lowerChar c0 = 'i' && lowerChar c1 = 'd' then
      match rest.takeWhile isDigitC with
      | [] => none
      | ds =>
        let sp := c0 :: c1 :: ds
        some (sp, [some (String.mk sp), some (String.mk sp)])
    else none
  | _ => none

/-- The compiled `re.compile(r'(?i)^(ID\d+)')`. -/
def reID : Regex := ⟨anchoredSearch matchIDAt, anchoredSub matchIDAt⟩

/-- Position matcher for `(?i)^GTS(\d+)`: group 1 holds only the digits. -/
def matchGTSAt : MatchAt := fun l =>
  match l with
  | c0 :: c1 :: c2 :: rest =>
    if lowerChar c0 = 'g' && lowerChar c1 = 't' && lowerChar c2 = 's' then
      match rest.takeWhile isDigitC with
      | [] => none
      | ds =>
        some (c0 :: c1 :: c2 :: ds, [some (String.mk (c0 :: c1 :: c2 :: ds)), some (String.mk ds)])
    else none
  | _ => none

/-- The compiled `re.compile(r'(?i)^GTS(\d+)')`. -/
def reGTS : Regex := ⟨anchoredSearch matchGTSAt, anchoredSub matchGTSAt⟩

/-- Position matcher for `' [\d.]+ ([A-Z]{3})@ [\d.]+ *$'`.  The `[\d.]+` runs
are taken greedily; no backtracking can help because the character class is
disjoint from the space and letter that must follow, and `' *$'` must consume
every remaining character. -/
def matchCurrencyAt : MatchAt := fun l =>
  match l with
  | ' ' :: rest =>
    match rest.takeWhile isDigitDot with
    | [] => none
    | ds =>
      match rest.drop ds.length with
      | ' ' :: a :: b :: c :: '@' :: ' ' :: rest2 =>
        if isUpperAZ a && isUpperAZ b && isUpperAZ c then
          match rest2.takeWhile isDigitDot with
          | [] => none
          | ds2 =>
            if (rest2.drop ds2.length).all (fun x => x = ' ') then
              some (l, [some (String.mk l), some (String.mk [a, b, c])])
            else none
        else none
      | _ => none
  | _ => none

/-- The compiled `re.compile(r' [\d.]+ ([A-Z]{3})@ [\d.]+ *$')`.  Any match
runs to the end of the subject, so `sub` replaces at most once. -/
def reCurrency : Regex := ⟨leftmostSearch matchCurrencyAt, endAnchoredSub matchCurrencyAt⟩

/-- Position matcher for `'@ ([\d.]+)$'`: `@`, a space, then digits and dots
reaching exactly the end of the subject. -/
def matchRateAt : MatchAt := fun l =>
  match l with
  | '@' :: ' ' :: rest =>
    match rest.takeWhile isDigitDot with
    | [] => none
    | ds =>
      if rest.drop ds.length = [] then
        some (l, [some (String.mk l), some (String.mk ds)])
      else none
  | _ => none

/-- The compiled `re.compile(r'@ ([\d.]+)$')`. -/
def reRate : Regex := ⟨leftmostSearch matchRateAt, endAnchoredSub matchRateAt⟩

/-- `beancount.core.data.Transaction`, with the fields the cleaner touches or
passes through.  Postings are opaque to the cleaner; their payload type is
irrelevant, a list of strings stands in for it. -/
structure Transaction where
  meta : List (String × String)
  date : Date
  flag : String
  payee : String
  narration : String
  tags : List String
  links : List String
  postings : List String
deriving DecidableEq, Repr

/-- The `Tx` transaction constructor of `helpers.py`: note that it strips the
payee and narration (`payee.strip() if payee else ''`) before storing them. -/
def Tx (date : Date) (payee : String) (narration : String) (tags : List String)
    (meta : List (String × String)) : Transaction :=
  { meta := meta
    date := date
    flag := "!"
    payee := pyStrip payee
    narration := pyStrip narration
    tags := tags
    links := []
    postings := [] }

/-- The fields shared by every `Action` subclass: the replacement/extraction
template `v` (class default `r'\1'`), the `transformer` (default identity) and
the `translation` lookup table (default empty). -/
structure ActionData where
  v : Replacement
  transformer : String → String
  translation : List (String × String)

/-- `Action.apply`: `v = m.expand(self.v).strip(); v = self.transformer(v);
return self.translation.get(v.lower(), v)`. -/
def ActionData.apply (d : ActionData) (m : RMatch) : Option String :=
  (m.expand d.v).map (fun s =>
    let v := pyStrip s
    let v := d.transformer v
    (lookupKV d.translation (pyLower v)).getD v)

/-- The closed set of `Action` variants: `Payee`, `Tag` and `Meta` (which
carries the metadata key `n`).  The abstract base class cannot be instantiated
(it is a pydantic `ABC` with an abstract `execute`), so a closed inductive is
its faithful image. -/
inductive Action where
  | payee : ActionData → Action
  | tag : ActionData → Action
  | meta : String → ActionData → Action

/-- `Action.execute(m, txn)` of the matching subclass.  `re` is the pattern
the match came from (`m.re` in Python — the engine always passes the
extractor's own pattern):
* `Payee`: `p = m.re.sub(self.v, txn.payee).strip(); txn._replace(payee=p)`;
* `Tag`: `tags = set(txn.tags or []); tags.add(self.apply(m));
  txn._replace(tags=tags)`;
* `Meta`: append-or-insert `self.apply(m)` under key `n` (see `metaAdd`). -/
def Action.execute (a : Action) (re : Regex) (m : RMatch) (txn : Transaction) :
    Option Transaction :=
  match a with
  | .payee d =>
    (re.sub d.v txn.payee).map (fun p => { txn with payee := pyStrip p })
  | .tag d =>
    (d.apply m).map (fun v => { txn with tags := setAdd txn.tags v })
  | .meta n d =>
    (d.apply m).map (fun v => { txn with meta := metaAdd txn.meta n v })

/-- The `C` cleaner action of `cleaner.py`: `Payee(v='')`, replacing the whole
matched span with the empty string. -/
def C : Action := Action.payee ⟨Replacement.tmpl "", id, []⟩

/-- `Extractor`: a compiled pattern, the ordered action list, the mutable
`last_used` date and a description. -/
structure Extractor where
  r : Regex
  actions : List Action
  last_used : Date
  description : String

/-- `Extractor.new(desc, r, actions)`: `last_used` starts at the `AGES_AGO`
sentinel. -/
def Extractor.new (desc : String) (r : Regex) (actions : List Action) : Extractor :=
  { r := r, actions := actions, last_used := AGES_AGO, description := desc }

/-- The body of the `for action in extractor.actions` loop: thread the
transaction through the actions in order. -/
def runActions (re : Regex) (m : RMatch) : List Action → Transaction → Option Transaction
  | [], txn => some txn
  | a :: rest, txn => (a.execute re m txn).bind (runActions re m rest)

/-- One iteration of the extractor loop of `TxnPayeeCleanup`: search the
pattern against the current payee; on a match, first set
`last_used = max(txn.date, last_used)`, then run the actions.  The returned
extractor state is computed before (and independently of) the actions. -/
def stepExtractor (txn : Transaction) (e : Extractor) : Extractor × Option Transaction :=
  match e.r.search txn.payee with
  | some m =>
    ({ e with last_used := maxDate txn.date e.last_used }, runActions e.r m e.actions txn)
  | none => (e, some txn)

/-- The full extractor loop.  The first component is the post-run state of the
extractor list (Python mutates the `Extractor` objects in place, so on an
exception the already-processed extractors keep their updates while the rest
are untouched); the second is the resulting transaction, `none` when an action
raised. -/
def processExtractors : Transaction → List Extractor → List Extractor × Option Transaction
  | txn, [] => ([], some txn)
  | txn, e :: rest =>
    match stepExtractor txn e with
    | (e', some txn1) =>
      let r := processExtractors txn1 rest
      (e' :: r.1, r.2)
    | (e', none) => (e' :: rest, none)

/-- Step 4 of the engine: `if preserveOriginalIn and txn.payee != old_payee:
txn.meta[preserveOriginalIn] = old_payee`.  A `None` or empty-string key is
falsy and disables the step. -/
def preserveStep (pres : Option String) (old_payee : String) (txn : Transaction) :
    Transaction :=
  match pres with
  | some k =>
    if k ≠ "" ∧ txn.payee ≠ old_payee then
      { txn with meta := dictSet txn.meta k old_payee }
    else txn
  | none => txn

/-- Step 5 of the engine: `if txn.meta != old_meta:
txn = txn._replace(meta=dict(sorted(txn.meta.items())))`. -/
def sortStep (old_meta : List (String × String)) (txn : Transaction) : Transaction :=
  if metaEq txn.meta old_meta then txn else { txn with meta := sortMeta txn.meta }

/-- `TxnPayeeCleanup(txn, extractors, preserveOriginalIn)`, with the post-run
extractor-list state made explicit (first component) since Python updates the
extractors in place.  `none` extractors or a falsy payee short-circuit. -/
def TxnPayeeCleanupFull (txn : Transaction) (extractors : Option (List Extractor))
    (preserveOriginalIn : Option String) : List Extractor × Option Transaction :=
  match extractors with
  | none => ([], some txn)
  | some exs =>
    if txn.payee = "" then (exs, some txn)
    else
      let r := processExtractors txn exs
      (r.1, r.2.map (fun t => sortStep txn.meta (preserveStep preserveOriginalIn txn.payee t)))

/-- The transaction returned by `TxnPayeeCleanup`. -/
def TxnPayeeCleanup (txn : Transaction) (extractors : Option (List Extractor))
    (preserveOriginalIn : Option String) : Option Transaction :=
  (TxnPayeeCleanupFull txn extractors preserveOriginalIn).2

/-- The tuple order used by `extractorsUsage`'s `sorted`: ascending by date,
ties broken by the description string (Python tuple comparison). -/
def usageLe (a b : Date × String) : Bool :=
  dateLt a.1 b.1 || (decide (a.1 = b.1) && strLeChars a.2.data b.2.data)

/-- `extractorsUsage`: `sorted([(e.last_used, e.description) for e in
extractors])`. -/
def extractorsUsage (extractors : List Extractor) : List (Date × String) :=
  isort usageLe (extractors.map (fun e => (e.last_used, e.description)))

/-- `ExtractorUsage.__str__`: `f'{self.date.strftime("%Y-%m-%d")}:
{self.rulename}'`. -/
def usageLine (u : Date × String) : String :=
  dateFmt u.1 ++ ": " ++ u.2

/-- `ExtractorsUsage.__str__`: the lines joined with newlines. -/
def renderUsage (us : List (Date × String)) : String :=
  String.intercalate "\n" (us.map usageLine)

/-- `m.group(1)`, for the one callable replacement the fixture uses (group 1
always participates when that pattern matches). -/
def RMatch.group1 (m : RMatch) : String :=
  ((m.groups.get? 1).getD none).getD ""

/-- Fixture extractor 1: `E("extract '^XY1234', add id=XY1234 to metadata",
re.compile(r'(?i)^(XY9\d+)'), actions=[M('id'), C])`. -/
def xyExtractor : Extractor :=
  Extractor.new "extract '^XY1234', add id=XY1234 to metadata" reXY9
    [Action.meta "id" ⟨Replacement.tmpl "\\1", id, []⟩, C]

/-- Fixture extractor 2: `E("extract '^ID1234', lowercase it, add id=id1234 to
metadata", r'(?i)^(ID\d+)', actions=[M('id', transformer=lambda s:
s.lower()), C])`. -/
def idExtractor : Extractor :=
  Extractor.new "extract '^ID1234', lowercase it, add id=id1234 to metadata" reID
    [Action.meta "id" ⟨Replacement.tmpl "\\1", pyLower, []⟩, C]

/-- Fixture extractor 3: `E("match '^GTS1234', add id=v-1234 to metadata,
replace 'GTS1234' with '4321'", r'(?i)^GTS(\d+)', actions=[M('id', v=r'v-\1'),
P(v=lambda m: m.group(1)[::-1])])`. -/
def gtsExtractor : Extractor :=
  Extractor.new
    "match '^GTS1234', add id=v-1234 to metadata, replace 'GTS1234' with '4321'"
    reGTS
    [Action.meta "id" ⟨Replacement.tmpl "v-\\1", id, []⟩,
     Action.payee ⟨Replacement.func (fun m => String.mk m.group1.data.reverse), id, []⟩]

/-- Fixture extractor 4: `E("match '12.34 ABC@ 0.13 ', extract abc, run it
through the lookup table, no replacement", r' [\d.]+ ([A-Z]{3})@ [\d.]+ *$',
actions=[T(r'\1', translation={'jpy': '¥'}), P(r'\g<0>')])`. -/
def currencyExtractor : Extractor :=
  Extractor.new
    "match '12.34 ABC@ 0.13 ', extract abc, run it through the lookup table, no replacement"
    reCurrency
    [Action.tag ⟨Replacement.tmpl "\\1", id, [("jpy", "¥")]⟩,
     Action.payee ⟨Replacement.tmpl "\\g<0>", id, []⟩]

/-- Fixture extractor 5: `E("match '@ 0.13$', replace with ' (0.13 each)', no
extraction", r'@ ([\d.]+)$', actions=P(r' (\1 each)'))`. -/
def rateExtractor : Extractor :=
  Extractor.new "match '@ 0.13$', replace with ' (0.13 each)', no extraction" reRate
    [Action.payee ⟨Replacement.tmpl " (\\1 each)", id, []⟩]

/-- The full five-extractor fixture of the repository's test suite. -/
def fixtureExtractors : List Extractor :=
  [xyExtractor, idExtractor, gtsExtractor, currencyExtractor, rateExtractor]

/-- The test suite's transaction date, `2071-03-14`. -/
def TESTDATE : Date := ⟨2071, 3, 14⟩

/-- The frame of a transaction: everything the cleaner may never change. -/
def FrameEq (a b : Transaction) : Prop :=
  b.date = a.date ∧ b.flag = a.flag ∧ b.narration = a.narration ∧
    b.links = a.links ∧ b.postings = a.postings

/-- Modelled from the spec: the value-derivation pipeline the spec ascribes to
`Action.apply` — expand the `value` template against the match's captured
groups ("a literal `\N` backreference syntax or an explicit function of the
match object"), strip surrounding whitespace, pass through `transformer`, then
look the lowercased result up in `translation`.  The function form expands to
the function applied to the match. -/
def applySpecPipeline (d : ActionData) (m : RMatch) : Option String :=
  (match d.v with
    | Replacement.tmpl t => (expandTemplate m.groups t.data).map String.mk
    | Replacement.func f => some (f m)).map (fun s =>
    let v := pyStrip s
    let v2 := d.transformer v
    (lookupKV d.translation (pyLower v2)).getD v2)

/-- A transaction whose payee field holds the C1 input string literally,
trailing spaces included (not passed through the stripping `Tx` helper). -/
def airsideRaw : Transaction :=
  { meta := []
    date := TESTDATE
    flag := "!"
    payee := "AirSide Coffee 12.30 JPY@ 0.13  "
    narration := ""
    tags := []
    links := []
    postings := [] }

/-- The same input built by the repository's `Tx` helper, which strips the
payee at construction time (as the test suite does). -/
def airsideTx : Transaction :=
  Tx TESTDATE "AirSide Coffee 12.30 JPY@ 0.13  " "" [] []

/-- The preserve-original test input, `TTx('ID19283 standing order')`. -/
def idTxn : Transaction :=
  Tx TESTDATE "ID19283 standing order" "" [] []

/-- The transaction state after the extractor loop of
`TxnPayeeCleanup(idTxn, fixtureExtractors, 'previously')`. -/
def idMid : Transaction :=
  { meta := [("id", "id19283")]
    date := TESTDATE
    flag := "!"
    payee := "standing order"
    narration := ""
    tags := []
    links := []
    postings := [] }

/-- The final result of `TxnPayeeCleanup(idTxn, fixtureExtractors,
'previously')`. -/
def idRes : Transaction :=
  { meta := [("id", "id19283"), ("previously", "ID19283 standing order")]
    date := TESTDATE
    flag := "!"
    payee := "standing order"
    narration := ""
    tags := []
    links := []
    postings := [] }

/-- The metadata-append test input, `TTx('XY90210 Happy Days',
meta={'id': 'Agent 007'})`. -/
def agentTxn : Transaction :=
  Tx TESTDATE "XY90210 Happy Days" "" [] [("id", "Agent 007")]

/-- The result of executing the `M('id')` action of `xyExtractor` on
`agentTxn` (only the metadata changes). -/
def agentMidTxn : Transaction :=
  { meta := [("id", "Agent 007, XY90210")]
    date := TESTDATE
    flag := "!"
    payee := "XY90210 Happy Days"
    narration := ""
    tags := []
    links := []
    postings := [] }

/-! ### Dictionary lemmas -/

theorem metaEq_refl (l : List (String × String)) : metaEq l l = true := by
  simp [metaEq, List.all_eq_true]

theorem lookupKV_dictSet_self (l : List (String × String)) (k v : String) :
    lookupKV (dictSet l k v) k = some v := by
  induction l with
  | nil => simp [dictSet, lookupKV]
  | cons p rest ih =>
    by_cases h : p.1 = k
    · simp [dictSet, h, lookupKV]
    · simp [dictSet, h, lookupKV, ih]

theorem lookupKV_metaAdd_present (l : List (String × String)) (n v old : String)
    (h : lookupKV l n = some old) :
    lookupKV (metaAdd l n v) n = some (old ++ ", " ++ v) := by
  induction l with
  | nil => simp [lookupKV] at h
  | cons p rest ih =>
    by_cases hk : p.1 = n
    · simp [lookupKV, hk] at h
      simp [metaAdd, hk, lookupKV, h]
    · simp [lookupKV, hk] at h
      simp [metaAdd, hk, lookupKV, ih h]

theorem metaAdd_absent (l : List (String × String)) (n v : String)
    (h : lookupKV l n = none) : metaAdd l n v = l ++ [(n, v)] := by
  induction l with
  | nil => simp [metaAdd]
  | cons p rest ih =>
    by_cases hk : p.1 = n
    · simp [lookupKV, hk] at h
    · simp [lookupKV, hk] at h
      simp [metaAdd, hk, ih h]

theorem keys_metaAdd (l : List (String × String)) (n v : String) :
    (metaAdd l n v).map Prod.fst = l.map Prod.fst ∨
      (metaAdd l n v).map Prod.fst = l.map Prod.fst ++ [n] := by
  induction l with
  | nil => simp [metaAdd]
  | cons p rest ih =>
    by_cases hk : p.1 = n
    · left; simp [metaAdd, hk]
    · rcases ih with h | h
      · left; simp [metaAdd, hk, h]
      · right; simp [metaAdd, hk, h]

theorem nodup_metaAdd (l : List (String × String)) (n v : String)
    (h : (l.map Prod.fst).Nodup) : ((metaAdd l n v).map Prod.fst).Nodup := by
  induction l with
  | nil => simp [metaAdd]
  | cons p rest ih =>
    obtain ⟨k, w⟩ := p
    simp only [List.map_cons, List.nodup_cons] at h
    by_cases hk : k = n
    · simpa [metaAdd, hk, List.nodup_cons] using h
    · simp only [metaAdd, if_neg hk, List.map_cons, List.nodup_cons]
      refine ⟨?_, ih h.2⟩
      rcases keys_metaAdd rest n v with hkeys | hkeys <;> rw [hkeys]
      · exact h.1
      · simp only [List.mem_append, List.mem_singleton]
        rintro (hmem | rfl)
        · exact h.1 hmem
        · exact hk rfl

theorem keys_dictSet (l : List (String × String)) (k v : String) :
    (dictSet l k v).map Prod.fst = l.map Prod.fst ∨
      (dictSet l k v).map Prod.fst = l.map Prod.fst ++ [k] := by
  induction l with
  | nil => simp [dictSet]
  | cons p rest ih =>
    by_cases hk : p.1 = k
    · left; simp [dictSet, hk]
    · rcases ih with h | h
      · left; simp [dictSet, hk, h]
      · right; simp [dictSet, hk, h]

theorem nodup_dictSet (l : List (String × String)) (k v : String)
    (h : (l.map Prod.fst).Nodup) : ((dictSet l k v).map Prod.fst).Nodup := by
  induction l with
  | nil => simp [dictSet]
  | cons p rest ih =>
    obtain ⟨k', w⟩ := p
    simp only [List.map_cons, List.nodup_cons] at h
    by_cases hk : k' = k
    · subst hk
      simpa [dictSet, List.nodup_cons] using h
    · simp only [dictSet, if_neg hk, List.map_cons, List.nodup_cons]
      refine ⟨?_, ih h.2⟩
      rcases keys_dictSet rest k v with hkeys | hkeys <;> rw [hkeys]
      · exact h.1
      · simp only [List.mem_append, List.mem_singleton]
        rintro (hmem | rfl)
        · exact h.1 hmem
        · exact hk rfl

theorem lookupKV_eq_none_iff (l : List (String × String)) (k : String) :
    lookupKV l k = none ↔ ∀ p ∈ l, p.1 ≠ k := by
  induction l with
  | nil => simp [lookupKV]
  | cons p rest ih =>
    by_cases hk : p.1 = k
    · simp [lookupKV, hk]
    · simp [lookupKV, hk, ih]

theorem lookupKV_eq_some_iff (l : List (String × String)) (k v : String)
    (h : (l.map Prod.fst).Nodup) : lookupKV l k = some v ↔ (k, v) ∈ l := by
  induction l with
  | nil => simp [lookupKV]
  | cons p rest ih =>
    obtain ⟨k', w⟩ := p
    simp only [List.map_cons, List.nodup_cons] at h
    by_cases hk : k' = k
    · subst hk
      simp only [lookupKV]
      rw [if_pos trivial]
      simp only [List.mem_cons, Option.some.injEq, Prod.mk.injEq]
      constructor
      · rintro rfl
        left
        exact ⟨trivial, rfl⟩
      · rintro (⟨-, rfl⟩ | hmem)
        · rfl
        · exact absurd (List.mem_map_of_mem Prod.fst hmem) (by simpa using h.1)
    · simp only [lookupKV, if_neg hk, List.mem_cons, ih h.2, Prod.mk.injEq]
      constructor
      · intro hmem
        right
        exact hmem
      · rintro (⟨heq, -⟩ | hmem)
        · exact absurd heq.symm hk
        · exact hmem

theorem lookupKV_eq_of_perm (l l' : List (String × String)) (k : String)
    (hperm : l.Perm l') (h : (l.map Prod.fst).Nodup) :
    lookupKV l k = lookupKV l' k := by
  have h' : (l'.map Prod.fst).Nodup := ((hperm.map Prod.fst).nodup_iff).mp h
  cases hv : lookupKV l k with
  | none =>
    rw [lookupKV_eq_none_iff] at hv
    rw [eq_comm, lookupKV_eq_none_iff]
    intro p hp
    exact hv p (hperm.symm.subset hp)
  | some v =>
    rw [lookupKV_eq_some_iff _ _ _ h] at hv
    rw [eq_comm, lookupKV_eq_some_iff _ _ _ h']
    exact hperm.subset hv

/-! ### Insertion-sort lemmas -/

theorem insertLe_perm (le : α → α → Bool) (a : α) (l : List α) :
    (insertLe le a l).Perm (a :: l) := by
  induction l with
  | nil => simp [insertLe]
  | cons b rest ih =>
    by_cases h : le a b
    · simp [insertLe, h]
    · simp only [insertLe, h, ite_false]
      exact (ih.cons b).trans (List.Perm.swap a b rest)

theorem isort_perm (le : α → α → Bool) (l : List α) : (isort le l).Perm l := by
  induction l with
  | nil => simp [isort]
  | cons a rest ih =>
    exact (insertLe_perm le a (isort le rest)).trans (ih.cons a)

theorem insertLe_pairwise (le : α → α → Bool)
    (htot : ∀ a b, le a b = true ∨ le b a = true)
    (htrans : ∀ a b c, le a b = true → le b c = true → le a c = true)
    (a : α) (l : List α) (h : l.Pairwise (fun x y => le x y = true)) :
    (insertLe le a l).Pairwise (fun x y => le x y = true) := by
  induction l with
  | nil => simp [insertLe]
  | cons b rest ih =>
    rcases List.pairwise_cons.mp h with ⟨hb, hrest⟩
    by_cases hab : le a b
    · rw [insertLe, if_pos hab]
      refine List.Pairwise.cons ?_ h
      intro x hx
      rcases List.mem_cons.mp hx with rfl | hx
      · exact hab
      · exact htrans a b x hab (hb x hx)
    · have hba : le b a = true := by
        rcases htot a b with h1 | h1
        · exact absurd h1 hab
        · exact h1
      rw [insertLe, if_neg hab]
      refine List.Pairwise.cons ?_ (ih hrest)
      intro x hx
      have := (insertLe_perm le a rest).mem_iff.mp hx
      rcases List.mem_cons.mp this with rfl | hx'
      · exact hba
      · exact hb x hx'

theorem isort_pairwise (le : α → α → Bool)
    (htot : ∀ a b, le a b = true ∨ le b a = true)
    (htrans : ∀ a b c, le a b = true → le b c = true → le a c = true)
    (l : List α) : (isort le l).Pairwise (fun x y => le x y = true) := by
  induction l with
  | nil => simp [isort]
  | cons a rest ih =>
    exact insertLe_pairwise le htot htrans a (isort le rest) ih

/-! ### Date order lemmas -/

theorem dateLe_refl (a : Date) : dateLe a a = true := by
  simp [dateLe]

theorem dateLe_max_right (a b : Date) : dateLe b (maxDate a b) = true := by
  unfold maxDate
  by_cases h : dateLe b a
  · rw [if_pos h]
    exact h
  · rw [if_neg h]
    exact dateLe_refl b

theorem dateLt_trichotomy (a b : Date) :
    dateLt a b = true ∨ a = b ∨ dateLt b a = true := by
  obtain ⟨ay, am, ad⟩ := a
  obtain ⟨cy, cm, cd⟩ := b
  simp only [dateLt, Bool.or_eq_true, Bool.and_eq_true, decide_eq_true_eq,
    Date.mk.injEq]
  omega

theorem dateLt_trans (a b c : Date) (h1 : dateLt a b = true)
    (h2 : dateLt b c = true) : dateLt a c = true := by
  obtain ⟨ay, am, ad⟩ := a
  obtain ⟨by2, bm, bd⟩ := b
  obtain ⟨cy, cm, cd⟩ := c
  simp only [dateLt, Bool.or_eq_true, Bool.and_eq_true, decide_eq_true_eq] at h1 h2 ⊢
  omega

/-! ### String order lemmas -/

theorem strLeChars_total (as : List Char) :
    ∀ bs, strLeChars as bs = true ∨ strLeChars bs as = true := by
  induction as with
  | nil =>
    intro bs
    left
    simp [strLeChars]
  | cons a as ih =>
    intro bs
    cases bs with
    | nil =>
      right
      simp [strLeChars]
    | cons b bs =>
      by_cases h : a.toNat = b.toNat
      · rcases ih bs with h1 | h1
        · left
          simp [strLeChars, h, h1]
        · right
          simp [strLeChars, h.symm, h1]
      · rcases Nat.lt_or_ge a.toNat b.toNat with h1 | h1
        · left
          simp [strLeChars, h, h1]
        · have h2 : b.toNat < a.toNat := Nat.lt_of_le_of_ne h1 (fun e => h e.symm)
          right
          simp [strLeChars, show ¬b.toNat = a.toNat from fun e => h e.symm, h2]

theorem strLeChars_trans (as : List Char) :
    ∀ bs cs, strLeChars as bs = true → strLeChars bs cs = true →
      strLeChars as cs = true := by
  induction as with
  | nil =>
    intro bs cs _ _
    simp [strLeChars]
  | cons a as ih =>
    intro bs cs h1 h2
    cases bs with
    | nil => simp [strLeChars] at h1
    | cons b bs =>
      cases cs with
      | nil => simp [strLeChars] at h2
      | cons c cs =>
        by_cases hab : a.toNat = b.toNat
        · simp only [strLeChars, if_pos hab] at h1
          by_cases hbc : b.toNat = c.toNat
          · simp only [strLeChars, if_pos hbc] at h2
            simp only [strLeChars, if_pos (hab.trans hbc)]
            exact ih bs cs h1 h2
          · simp only [strLeChars, if_neg hbc, decide_eq_true_eq] at h2
            have hac : ¬a.toNat = c.toNat := by omega
            simp only [strLeChars, if_neg hac, decide_eq_true_eq]
            omega
        · simp only [strLeChars, if_neg hab, decide_eq_true_eq] at h1
          by_cases hbc : b.toNat = c.toNat
          · have hac : ¬a.toNat = c.toNat := by omega
            simp only [strLeChars, if_neg hac, decide_eq_true_eq]
            omega
          · simp only [strLeChars, if_neg hbc, decide_eq_true_eq] at h2
            have hac : ¬a.toNat = c.toNat := by omega
            simp only [strLeChars, if_neg hac, decide_eq_true_eq]
            omega

theorem usageLe_total (a b : Date × String) :
    usageLe a b = true ∨ usageLe b a = true := by
  unfold usageLe
  rcases dateLt_trichotomy a.1 b.1 with h | h | h
  · left
    simp [h]
  · rcases strLeChars_total a.2.data b.2.data with h2 | h2
    · left
      simp [h, h2]
    · right
      simp [h, h2]
  · right
    simp [h]

theorem usageLe_trans (a b c : Date × String) (h1 : usageLe a b = true)
    (h2 : usageLe b c = true) : usageLe a c = true := by
  unfold usageLe at h1 h2 ⊢
  simp only [Bool.or_eq_true, Bool.and_eq_true, decide_eq_true_eq] at h1 h2 ⊢
  rcases h1 with h1 | ⟨h1e, h1s⟩
  · rcases h2 with h2 | ⟨h2e, h2s⟩
    · left
      exact dateLt_trans _ _ _ h1 h2
    · left
      rw [← h2e]
      exact h1
  · rcases h2 with h2 | ⟨h2e, h2s⟩
    · left
      rw [h1e]
      exact h2
    · right
      exact ⟨h1e.trans h2e, strLeChars_trans _ _ _ h1s h2s⟩

/-! ### Engine lemmas -/

theorem processExtractors_nomatch (txn : Transaction) (exs : List Extractor)
    (h : ∀ e ∈ exs, e.r.search txn.payee = none) :
    processExtractors txn exs = (exs, some txn) := by
  induction exs with
  | nil => simp [processExtractors]
  | cons e rest ih =>
    have he : e.r.search txn.payee = none := h e (List.mem_cons_self e rest)
    have hstep : stepExtractor txn e = (e, some txn) := by
      simp [stepExtractor, he]
    simp [processExtractors, hstep,
      ih (fun e' h' => h e' (List.mem_cons_of_mem e h'))]

theorem preserveStep_same (pres : Option String) (p : String) (txn : Transaction)
    (h : txn.payee = p) : preserveStep pres p txn = txn := by
  cases pres with
  | none => rfl
  | some k => simp [preserveStep, h]

theorem sortStep_self (old : List (String × String)) (txn : Transaction)
    (h : txn.meta = old) : sortStep old txn = txn := by
  simp [sortStep, h, metaEq_refl]

theorem frameEq_refl (a : Transaction) : FrameEq a a :=
  ⟨rfl, rfl, rfl, rfl, rfl⟩

theorem frameEq_trans {a b c : Transaction} (h1 : FrameEq a b) (h2 : FrameEq b c) :
    FrameEq a c := by
  obtain ⟨e1, e2, e3, e4, e5⟩ := h1
  obtain ⟨f1, f2, f3, f4, f5⟩ := h2
  exact ⟨f1.trans e1, f2.trans e2, f3.trans e3, f4.trans e4, f5.trans e5⟩

theorem execute_frame (a : Action) (re : Regex) (m : RMatch) (txn txn' : Transaction)
    (h : a.execute re m txn = some txn') : FrameEq txn txn' := by
  cases a with
  | payee d =>
    simp only [Action.execute, Option.map_eq_some'] at h
    obtain ⟨p, -, rfl⟩ := h
    exact frameEq_refl _
  | tag d =>
    simp only [Action.execute, Option.map_eq_some'] at h
    obtain ⟨v, -, rfl⟩ := h
    exact frameEq_refl _
  | meta n d =>
    simp only [Action.execute, Option.map_eq_some'] at h
    obtain ⟨v, -, rfl⟩ := h
    exact frameEq_refl _

theorem runActions_frame (re : Regex) (m : RMatch) (acts : List Action) :
    ∀ txn txn', runActions re m acts txn = some txn' → FrameEq txn txn' := by
  induction acts with
  | nil =>
    intro txn txn' h
    simp only [runActions, Option.some.injEq] at h
    rw [← h]
    exact frameEq_refl _
  | cons a rest ih =>
    intro txn txn' h
    simp only [runActions, Option.bind_eq_some] at h
    obtain ⟨mid, hmid, hrest⟩ := h
    exact frameEq_trans (execute_frame a re m txn mid hmid) (ih mid txn' hrest)

theorem stepExtractor_frame (txn : Transaction) (e : Extractor) (txn' : Transaction)
    (h : (stepExtractor txn e).2 = some txn') : FrameEq txn txn' := by
  unfold stepExtractor at h
  cases hs : e.r.search txn.payee with
  | some m =>
    rw [hs] at h
    exact runActions_frame e.r m e.actions txn txn' h
  | none =>
    rw [hs] at h
    simp only [Option.some.injEq] at h
    rw [← h]
    exact frameEq_refl _

theorem processExtractors_frame (exs : List Extractor) :
    ∀ txn txn', (processExtractors txn exs).2 = some txn' → FrameEq txn txn' := by
  induction exs with
  | nil =>
    intro txn txn' h
    simp only [processExtractors, Option.some.injEq] at h
    rw [← h]
    exact frameEq_refl _
  | cons e rest ih =>
    intro txn txn' h
    unfold processExtractors at h
    cases hs : stepExtractor txn e with
    | mk e' r1 =>
      rw [hs] at h
      cases r1 with
      | some mid =>
        simp only at h
        have h1 : (stepExtractor txn e).2 = some mid := by rw [hs]
        exact frameEq_trans (stepExtractor_frame txn e mid h1) (ih mid txn' h)
      | none => simp at h

/-! ### Nodup preservation through the engine -/

theorem execute_nodup (a : Action) (re : Regex) (m : RMatch) (txn txn' : Transaction)
    (h : a.execute re m txn = some txn')
    (hnd : (txn.meta.map Prod.fst).Nodup) : (txn'.meta.map Prod.fst).Nodup := by
  cases a with
  | payee d =>
    simp only [Action.execute, Option.map_eq_some'] at h
    obtain ⟨p, -, rfl⟩ := h
    exact hnd
  | tag d =>
    simp only [Action.execute, Option.map_eq_some'] at h
    obtain ⟨v, -, rfl⟩ := h
    exact hnd
  | meta n d =>
    simp only [Action.execute, Option.map_eq_some'] at h
    obtain ⟨v, -, rfl⟩ := h
    exact nodup_metaAdd txn.meta n v hnd

theorem runActions_nodup (re : Regex) (m : RMatch) (acts : List Action) :
    ∀ txn txn', runActions re m acts txn = some txn' →
      (txn.meta.map Prod.fst).Nodup → (txn'.meta.map Prod.fst).Nodup := by
  induction acts with
  | nil =>
    intro txn txn' h hnd
    simp only [runActions, Option.some.injEq] at h
    rw [← h]
    exact hnd
  | cons a rest ih =>
    intro txn txn' h hnd
    simp only [runActions, Option.bind_eq_some] at h
    obtain ⟨mid, hmid, hrest⟩ := h
    exact ih mid txn' hrest (execute_nodup a re m txn mid hmid hnd)

theorem processExtractors_nodup (exs : List Extractor) :
    ∀ txn txn', (processExtractors txn exs).2 = some txn' →
      (txn.meta.map Prod.fst).Nodup → (txn'.meta.map Prod.fst).Nodup := by
  induction exs with
  | nil =>
    intro txn txn' h hnd
    simp only [processExtractors, Option.some.injEq] at h
    rw [← h]
    exact hnd
  | cons e rest ih =>
    intro txn txn' h hnd
    unfold processExtractors at h
    cases hs : stepExtractor txn e with
    | mk e' r1 =>
      rw [hs] at h
      cases r1 with
      | some mid =>
        simp only at h
        have hmid : (txn.meta.map Prod.fst).Nodup → (mid.meta.map Prod.fst).Nodup := by
          intro hh
          unfold stepExtractor at hs
          cases hsearch : e.r.search txn.payee with
          | some mm =>
            rw [hsearch] at hs
            have : runActions e.r mm e.actions txn = some mid := by
              have := congrArg Prod.snd hs
              simpa using this
            exact runActions_nodup e.r mm e.actions txn mid this hh
          | none =>
            rw [hsearch] at hs
            have : txn = mid := by
              have := congrArg Prod.snd hs
              simpa using this
            rw [← this]
            exact hh
        exact ih mid txn' h (hmid hnd)
      | none => simp at h

/-! ### last_used lemmas -/

theorem stepExtractor_last_used_le (txn : Transaction) (e : Extractor) :
    dateLe e.last_used ((stepExtractor txn e).1).last_used = true := by
  unfold stepExtractor
  cases hs : e.r.search txn.payee with
  | some m => exact dateLe_max_right txn.date e.last_used
  | none => exact dateLe_refl _

theorem processExtractors_last_used_mono (exs : List Extractor) :
    ∀ txn, List.Forall₂ (fun e e' => dateLe e.last_used e'.last_used = true)
      exs (processExtractors txn exs).1 := by
  induction exs with
  | nil =>
    intro txn
    simp [processExtractors]
  | cons e rest ih =>
    intro txn
    unfold processExtractors
    cases hs : stepExtractor txn e with
    | mk e' r1 =>
      have hle : dateLe e.last_used e'.last_used = true := by
        have := stepExtractor_last_used_le txn e
        rw [hs] at this
        exact this
      cases r1 with
      | some mid =>
        simp only
        exact List.Forall₂.cons hle (ih mid)
      | none =>
        simp only
        refine List.Forall₂.cons hle ?_
        exact List.forall₂_same.mpr (fun x _ => dateLe_refl x.last_used)

theorem preserveStep_frame (pres : Option String) (p : String) (txn : Transaction) :
    FrameEq txn (preserveStep pres p txn) := by
  cases pres with
  | none => exact frameEq_refl txn
  | some k =>
    by_cases h : k ≠ "" ∧ txn.payee ≠ p
    · simp only [preserveStep, if_pos h]
      exact ⟨rfl, rfl, rfl, rfl, rfl⟩
    · simp only [preserveStep, if_neg h]
      exact frameEq_refl txn

theorem sortStep_frame (old : List (String × String)) (txn : Transaction) :
    FrameEq txn (sortStep old txn) := by
  unfold sortStep
  by_cases h : metaEq txn.meta old = true
  · rw [if_pos h]
    exact frameEq_refl txn
  · rw [if_neg h]
    exact ⟨rfl, rfl, rfl, rfl, rfl⟩

/-! ### Claim theorems -/

/-- Claim C1, counterexample.  Read literally — a transaction whose payee
field is the string `"AirSide Coffee 12.30 JPY@ 0.13  "`, trailing spaces
included — the reversed pair [cleanup-strip-rate, tag-extract-currency-symbol]
does not produce the claimed payee with an empty tag set: the rate pattern
`@ ([\d.]+)$` cannot match past the trailing spaces, so only the currency
extractor fires, yielding payee `"AirSide Coffee 12.30 JPY@ 0.13"` and tag
set `{"¥"}`. -/
theorem claim1_order_counterexample :
    (TxnPayeeCleanup airsideRaw (some [rateExtractor, currencyExtractor]) none).map
        (fun t => (t.payee, t.tags)) =
      some ("AirSide Coffee 12.30 JPY@ 0.13", ["¥"]) ∧
    (TxnPayeeCleanup airsideRaw (some [rateExtractor, currencyExtractor]) none).map
        (fun t => (t.payee, t.tags)) ≠
      some ("AirSide Coffee 12.30 JPY (0.13 each)", ([] : List String)) := by
  decide

/-- Claim C1, amended.  Extractors are applied in list order against the payee
as rewritten so far.  For the transaction built from the payee string
`"AirSide Coffee 12.30 JPY@ 0.13  "` by the repository's `Tx` constructor
(which strips it to `"AirSide Coffee 12.30 JPY@ 0.13"`, as the test suite
does), the pair [tag-extract-currency-symbol, cleanup-strip-rate] yields payee
`"AirSide Coffee 12.30 JPY (0.13 each)"` with tag set `{"¥"}` and the reversed
pair yields the same payee with an empty tag set.  For a transaction whose
payee field keeps the trailing spaces literally, the original order still
yields the claimed payee and tag, but the reversed pair yields payee
`"AirSide Coffee 12.30 JPY@ 0.13"` with tag set `{"¥"}` (the rate pattern's
`$` anchor cannot match past the trailing spaces). -/
theorem claim1_order_amended :
    (TxnPayeeCleanup airsideTx (some [currencyExtractor, rateExtractor]) none).map
        (fun t => (t.payee, t.tags)) =
      some ("AirSide Coffee 12.30 JPY (0.13 each)", ["¥"]) ∧
    (TxnPayeeCleanup airsideTx (some [rateExtractor, currencyExtractor]) none).map
        (fun t => (t.payee, t.tags)) =
      some ("AirSide Coffee 12.30 JPY (0.13 each)", ([] : List String)) ∧
    (TxnPayeeCleanup airsideRaw (some [currencyExtractor, rateExtractor]) none).map
        (fun t => (t.payee, t.tags)) =
      some ("AirSide Coffee 12.30 JPY (0.13 each)", ["¥"]) ∧
    (TxnPayeeCleanup airsideRaw (some [rateExtractor, currencyExtractor]) none).map
        (fun t => (t.payee, t.tags)) =
      some ("AirSide Coffee 12.30 JPY@ 0.13", ["¥"]) := by
  decide

/-- Claim C3: when no supplied extractor's pattern matches the payee,
`TxnPayeeCleanup` returns the transaction unchanged, for any
`preserveOriginalIn` argument. -/
theorem claim3_nomatch_identity (txn : Transaction) (exs : List Extractor)
    (pres : Option String) (hno : ∀ e ∈ exs, e.r.search txn.payee = none) :
    TxnPayeeCleanup txn (some exs) pres = some txn := by
  by_cases hp : txn.payee = ""
  · simp [TxnPayeeCleanup, TxnPayeeCleanupFull, hp]
  · simp only [TxnPayeeCleanup, TxnPayeeCleanupFull, if_neg hp]
    rw [processExtractors_nomatch txn exs hno]
    simp only [Option.map_some']
    rw [preserveStep_same pres txn.payee txn rfl, sortStep_self txn.meta txn rfl]

/-- Witness for C3: none of the five fixture extractors matches
`'Fredrikson*and Sons Ltd.'`, and the transaction comes back unchanged. -/
theorem claim3_nomatch_identity_witness :
    TxnPayeeCleanup (Tx TESTDATE "Fredrikson*and Sons Ltd." "" [] [("length", "7 days")])
        (some fixtureExtractors) (some "previously") =
      some (Tx TESTDATE "Fredrikson*and Sons Ltd." "" [] [("length", "7 days")]) :=
  claim3_nomatch_identity _ fixtureExtractors (some "previously") (by decide)

/-- Claim C8: `TxnPayeeCleanup` with `None` extractors, with an empty
extractor list, or on a transaction with an empty/absent payee, returns the
transaction unchanged. -/
theorem claim8_noop_cases :
    (∀ (txn : Transaction) (pres : Option String),
        TxnPayeeCleanup txn none pres = some txn) ∧
    (∀ (txn : Transaction) (pres : Option String),
        TxnPayeeCleanup txn (some []) pres = some txn) ∧
    (∀ (txn : Transaction) (exs : List Extractor) (pres : Option String),
        txn.payee = "" → TxnPayeeCleanup txn (some exs) pres = some txn) := by
  refine ⟨fun txn pres => rfl, fun txn pres => ?_, fun txn exs pres hp => ?_⟩
  · by_cases hp : txn.payee = ""
    · simp [TxnPayeeCleanup, TxnPayeeCleanupFull, hp]
    · simp only [TxnPayeeCleanup, TxnPayeeCleanupFull, if_neg hp]
      rw [show processExtractors txn [] = ([], some txn) from rfl]
      simp only [Option.map_some']
      rw [preserveStep_same pres txn.payee txn rfl, sortStep_self txn.meta txn rfl]
  · simp [TxnPayeeCleanup, TxnPayeeCleanupFull, hp]

/-- Witness for C8: the empty-payee case at a concrete transaction. -/
theorem claim8_noop_cases_witness :
    TxnPayeeCleanup (Tx TESTDATE "" "" [] []) (some fixtureExtractors) (some "previously") =
      some (Tx TESTDATE "" "" [] []) :=
  claim8_noop_cases.2.2 (Tx TESTDATE "" "" [] []) fixtureExtractors (some "previously")
    (by decide)

/-- Claim C9: the `Action` base is closed — every action value is one of the
three variants `Payee`, `Tag`, `Meta`.  In the source the base class is an ABC
with an abstract `execute`, so instantiating it directly fails at construction
time; the closed inductive is the faithful image of that type-level
rejection. -/
theorem claim9_action_closed (a : Action) :
    (∃ d, a = Action.payee d) ∨ (∃ d, a = Action.tag d) ∨
      ∃ n d, a = Action.meta n d := by
  cases a with
  | payee d => exact Or.inl ⟨d, rfl⟩
  | tag d => exact Or.inr (Or.inl ⟨d, rfl⟩)
  | meta n d => exact Or.inr (Or.inr ⟨n, d, rfl⟩)

/-- Claim C10: `TxnPayeeCleanup` can change only the payee, tags and metadata
of a transaction — its date, flag, narration, links and postings always come
back equal. -/
theorem claim10_frame (txn : Transaction) (exs : Option (List Extractor))
    (pres : Option String) (out : Transaction)
    (h : TxnPayeeCleanup txn exs pres = some out) :
    out.date = txn.date ∧ out.flag = txn.flag ∧ out.narration = txn.narration ∧
      out.links = txn.links ∧ out.postings = txn.postings := by
  cases exs with
  | none =>
    have : txn = out := by
      simpa [TxnPayeeCleanup, TxnPayeeCleanupFull] using h
    rw [← this]
    exact ⟨rfl, rfl, rfl, rfl, rfl⟩
  | some l =>
    by_cases hp : txn.payee = ""
    · simp only [TxnPayeeCleanup, TxnPayeeCleanupFull, if_pos hp,
        Option.some.injEq] at h
      rw [← h]
      exact ⟨rfl, rfl, rfl, rfl, rfl⟩
    · simp only [TxnPayeeCleanup, TxnPayeeCleanupFull, if_neg hp,
        Option.map_eq_some'] at h
      obtain ⟨mid, hmid, rfl⟩ := h
      exact frameEq_trans (frameEq_trans (processExtractors_frame l txn mid hmid)
        (preserveStep_frame pres txn.payee mid))
        (sortStep_frame txn.meta (preserveStep pres txn.payee mid))

/-- Witness for C10: the preserve-original run on `idTxn` keeps date, flag,
narration, links and postings. -/
theorem claim10_frame_witness :
    idRes.date = idTxn.date ∧ idRes.flag = idTxn.flag ∧
      idRes.narration = idTxn.narration ∧ idRes.links = idTxn.links ∧
      idRes.postings = idTxn.postings :=
  claim10_frame idTxn (some fixtureExtractors) (some "previously") idRes (by decide)

/-- Claim C4: `last_used` bookkeeping.  (1) Across a run of the extractor
loop, every extractor's `last_used` is monotonically non-decreasing (the
output list pairs with the input pointwise).  (2) When an extractor's pattern
matches the payee current at its turn, its state is updated to
`max(txn.date, last_used)` — this is the first component of `stepExtractor`,
computed independently of what the actions do, so it happens even if no action
changes the transaction.  (3) A non-matching extractor is returned untouched.
(4) A freshly constructed extractor starts at the `AGES_AGO` sentinel,
`1900-01-01`. -/
theorem claim4_last_used :
    (∀ (txn : Transaction) (exs : List Extractor),
        List.Forall₂ (fun e e' => dateLe e.last_used e'.last_used = true)
          exs (processExtractors txn exs).1) ∧
    (∀ (txn : Transaction) (e : Extractor) (m : RMatch),
        e.r.search txn.payee = some m →
        (stepExtractor txn e).1 = { e with last_used := maxDate txn.date e.last_used }) ∧
    (∀ (txn : Transaction) (e : Extractor),
        e.r.search txn.payee = none → (stepExtractor txn e).1 = e) ∧
    (∀ (desc : String) (r : Regex) (acts : List Action),
        (Extractor.new desc r acts).last_used = AGES_AGO) := by
  refine ⟨fun txn exs => processExtractors_last_used_mono exs txn,
    fun txn e m h => ?_, fun txn e h => ?_, fun desc r acts => rfl⟩
  · simp [stepExtractor, h]
  · simp [stepExtractor, h]

/-- Witness for C4: the ID extractor matches `idTxn`'s payee, and its state
after the step carries `max(txn.date, last_used)`. -/
theorem claim4_last_used_witness :
    (stepExtractor idTxn idExtractor).1 =
      { idExtractor with last_used := maxDate idTxn.date idExtractor.last_used } :=
  claim4_last_used.2.1 idTxn idExtractor ⟨[some "ID19283", some "ID19283"]⟩ (by decide)

/-- Claim C5, counterexample.  The claim's pipeline accepts "backreference
string or function of the match" as the value template; but for a
function-valued `value`, `Action.apply` fails — `re.Match.expand` only takes a
string template (`TypeError` in Python) — instead of producing the function's
result as the spec-modelled pipeline does. -/
theorem claim5_apply_counterexample :
    ActionData.apply ⟨Replacement.func (fun x => x.group1), id, []⟩
        ⟨[some "a", some "b"]⟩ ≠
      applySpecPipeline ⟨Replacement.func (fun x => x.group1), id, []⟩
        ⟨[some "a", some "b"]⟩ := by
  decide

/-- Claim C5, amended.  For a string-valued `value` template, `Action.apply`
computes exactly the claimed pipeline: expand the template against the match's
captured groups, strip surrounding whitespace, apply `transformer`, then look
the lowercased value up in `translation`, returning the mapped replacement on
a hit and the (un-lowercased) value otherwise.  For a function-valued `value`
— allowed by the declared `Replacement` type for the benefit of `Payee`'s
regex substitution — `apply` fails, because `re.Match.expand` rejects
non-string templates. -/
theorem claim5_apply_amended :
    (∀ (d : ActionData) (m : RMatch) (t : String),
        d.v = Replacement.tmpl t → ActionData.apply d m = applySpecPipeline d m) ∧
    (∀ (d : ActionData) (m : RMatch) (f : RMatch → String),
        d.v = Replacement.func f → ActionData.apply d m = none) := by
  constructor
  · intro d m t h
    unfold ActionData.apply applySpecPipeline RMatch.expand
    rw [h]
  · intro d m f h
    unfold ActionData.apply RMatch.expand
    rw [h]
    rfl

/-- Witness for C5: the currency tag action's template `r'\1'` on the `JPY`
match goes through the pipeline (and hits the `{'jpy': '¥'}` translation). -/
theorem claim5_apply_amended_witness :
    ActionData.apply ⟨Replacement.tmpl "\\1", id, [("jpy", "¥")]⟩
        ⟨[some " 12.30 JPY@ 0.13", some "JPY"]⟩ =
      applySpecPipeline ⟨Replacement.tmpl "\\1", id, [("jpy", "¥")]⟩
        ⟨[some " 12.30 JPY@ 0.13", some "JPY"]⟩ :=
  claim5_apply_amended.1 _ _ "\\1" rfl

/-- Claim C6: a `Meta` action appends to an existing metadata key — the new
value under the key is the old value, `", "`, then the derived value, never an
overwrite — and inserts the key fresh when absent.  Concretely, metadata
`{'id': 'Agent 007'}` plus an extractor writing `id = 'XY90210'` yields
`{'id': 'Agent 007, XY90210'}`. -/
theorem claim6_meta_append :
    (∀ (n : String) (d : ActionData) (re : Regex) (m : RMatch)
        (txn txn' : Transaction) (v : String),
        ActionData.apply d m = some v →
        (Action.meta n d).execute re m txn = some txn' →
        (∀ old, lookupKV txn.meta n = some old →
          lookupKV txn'.meta n = some (old ++ ", " ++ v)) ∧
        (lookupKV txn.meta n = none → txn'.meta = txn.meta ++ [(n, v)])) ∧
    TxnPayeeCleanup agentTxn (some [xyExtractor]) none =
      some { meta := [("id", "Agent 007, XY90210")], date := TESTDATE, flag := "!",
             payee := "Happy Days", narration := "", tags := [], links := [],
             postings := [] } := by
  constructor
  · intro n d re m txn txn' v happly hexec
    simp only [Action.execute, happly, Option.map_some', Option.some.injEq] at hexec
    rw [← hexec]
    constructor
    · intro old hold
      exact lookupKV_metaAdd_present txn.meta n v old hold
    · intro habsent
      exact metaAdd_absent txn.meta n v habsent
  · decide

/-- Witness for C6: the `M('id')` action of the XY extractor, on the
`'XY90210'` match, turns `{'id': 'Agent 007'}` into
`{'id': 'Agent 007, XY90210'}`. -/
theorem claim6_meta_append_witness :
    lookupKV agentMidTxn.meta "id" = some ("Agent 007" ++ ", " ++ "XY90210") :=
  ((claim6_meta_append.1 "id" ⟨Replacement.tmpl "\\1", id, []⟩ reXY9
      ⟨[some "XY90210", some "XY90210"]⟩ agentTxn agentMidTxn "XY90210"
      (by decide) (by decide)).1 "Agent 007" (by decide))

/-- Claim C2: when a `preserveOriginalIn` key is supplied (a truthy string)
and the payee produced by the extractor loop differs from the snapshot of the
original payee, the returned transaction's metadata maps that key to the
snapshot — the preserve step writes it unconditionally, after every action,
overwriting whatever a `Meta` action put there.  When the final payee equals
the original, the preserve step writes nothing.  Concretely, payee
`'ID19283 standing order'` with `preserveOriginalIn='previously'` yields payee
`'standing order'` and metadata
`{'id': 'id19283', 'previously': 'ID19283 standing order'}`. -/
theorem claim2_preserve_original :
    (∀ (txn : Transaction) (exs : List Extractor) (k : String) (mid res : Transaction),
        k ≠ "" → txn.payee ≠ "" → (txn.meta.map Prod.fst).Nodup →
        (processExtractors txn exs).2 = some mid →
        TxnPayeeCleanup txn (some exs) (some k) = some res →
        (mid.payee ≠ txn.payee → lookupKV res.meta k = some txn.payee) ∧
        (mid.payee = txn.payee → preserveStep (some k) txn.payee mid = mid)) ∧
    TxnPayeeCleanup idTxn (some fixtureExtractors) (some "previously") = some idRes := by
  constructor
  · intro txn exs k mid res hk hp hnd hproc hres
    simp only [TxnPayeeCleanup, TxnPayeeCleanupFull, if_neg hp, hproc,
      Option.map_some', Option.some.injEq] at hres
    constructor
    · intro hne
      have hpres : preserveStep (some k) txn.payee mid =
          { mid with meta := dictSet mid.meta k txn.payee } := by
        simp only [preserveStep, if_pos (And.intro hk hne)]
      rw [hpres] at hres
      have hndmid : (mid.meta.map Prod.fst).Nodup :=
        processExtractors_nodup exs txn mid hproc hnd
      have hndP : ((dictSet mid.meta k txn.payee).map Prod.fst).Nodup :=
        nodup_dictSet mid.meta k txn.payee hndmid
      rw [← hres]
      unfold sortStep
      by_cases hmeq :
          metaEq ({ mid with meta := dictSet mid.meta k txn.payee } : Transaction).meta
            txn.meta = true
      · rw [if_pos hmeq]
        exact lookupKV_dictSet_self mid.meta k txn.payee
      · rw [if_neg hmeq]
        show lookupKV (sortMeta (dictSet mid.meta k txn.payee)) k = some txn.payee
        have hperm : (sortMeta (dictSet mid.meta k txn.payee)).Perm
            (dictSet mid.meta k txn.payee) := isort_perm kvLe _
        have hnds : ((sortMeta (dictSet mid.meta k txn.payee)).map Prod.fst).Nodup :=
          ((hperm.map Prod.fst).nodup_iff).mpr hndP
        rw [lookupKV_eq_of_perm _ _ k hperm hnds]
        exact lookupKV_dictSet_self mid.meta k txn.payee
    · intro he
      have hno : ¬(k ≠ "" ∧ mid.payee ≠ txn.payee) := fun hcon => hcon.2 he
      simp only [preserveStep, if_neg hno]
  · decide

/-- Witness for C2: on the preserve-original run over `idTxn`, the returned
metadata maps `'previously'` to the original payee snapshot. -/
theorem claim2_preserve_original_witness :
    lookupKV idRes.meta "previously" = some idTxn.payee :=
  (claim2_preserve_original.1 idTxn fixtureExtractors "previously" idMid idRes
    (by decide) (by decide) (by decide) (by decide) (by decide)).1 (by decide)

set_option maxRecDepth 40000 in
/-- Claim C7: `extractorsUsage` returns one (date, description) pair per
extractor — a permutation of the extractor list's pairs — sorted ascending by
date and then by description text.  Each entry renders as
`"YYYY-MM-DD: <description>"` and the report joins the lines with newlines;
after running the fixture on `'ID29381 Grooveshark subscription'`, the four
never-fired extractors keep the `1900-01-01` sentinel and sort first (by
description), the fired one sorts last — reproducing the repository test's
expected report verbatim. -/
theorem claim7_usage_report :
    (∀ es : List Extractor,
        (extractorsUsage es).Perm (es.map (fun e => (e.last_used, e.description))) ∧
        (extractorsUsage es).Pairwise (fun a b => usageLe a b = true)) ∧
    renderUsage (extractorsUsage
        ((processExtractors (Tx TESTDATE "ID29381 Grooveshark subscription" "" [] [])
          fixtureExtractors).1)) =
      "1900-01-01: extract '^XY1234', add id=XY1234 to metadata\n1900-01-01: match '12.34 ABC@ 0.13 ', extract abc, run it through the lookup table, no replacement\n1900-01-01: match '@ 0.13$', replace with ' (0.13 each)', no extraction\n1900-01-01: match '^GTS1234', add id=v-1234 to metadata, replace 'GTS1234' with '4321'\n2071-03-14: extract '^ID1234', lowercase it, add id=id1234 to metadata" := by
  constructor
  · intro es
    exact ⟨isort_perm usageLe _, isort_pairwise usageLe usageLe_total usageLe_trans _⟩
  · decide

end TxClean
